import Mathlib

/-!
Shallow embedding of the terminal e-commerce application
(cart_management.py, validation.py, authentication.py, general.py).

Python strings are modelled as lists of characters (`Str`), Python ints as
`ℤ`, and Python floats (prices, balances) as exact rationals `ℚ`; the
program only adds, subtracts and compares these quantities, and the claims
under study are about exact bookkeeping, so the rational model is the
faithful one for every stated property.  The mutable module-level state
(`general.products`, `general.cart`, `general.current_user['balance']`) is
passed explicitly; each Python function becomes a state transformer
returning the new state together with its return value.
-/

set_option maxHeartbeats 1000000

abbrev Str := List Char

/-- Characters stripped by Python `str.strip()` (the ASCII whitespace set:
space, tab, newline, carriage return, vertical tab, form feed). -/
def isPySpace (c : Char) : Bool :=
  c == ' ' || c == '\t' || c == '\n' || c == '\r' ||
  c == Char.ofNat 11 || c == Char.ofNat 12

/-- Python `str.strip()`: drop whitespace from both ends. -/
def pyStrip (s : Str) : Str :=
  ((s.dropWhile isPySpace).reverse.dropWhile isPySpace).reverse

/-- Python `str.lower()` on the ASCII range. -/
def pyLower (s : Str) : Str :=
  s.map Char.toLower

/-- Product record of `general.products`: keys id, name, price, stock
(product_management.load_products). -/
structure Product where
  id : ℤ
  name : Str
  price : ℚ
  stock : ℤ
deriving DecidableEq

/-- Cart line of `general.cart`: keys product_id, quantity, name, price
(cart_management.add_to_cart). -/
structure CartItem where
  product_id : ℤ
  quantity : ℤ
  name : Str
  price : ℚ
deriving DecidableEq

/-- The mutable state touched by the cart engine: `general.products` and
`general.cart`. -/
structure Store where
  products : List Product
  cart : List CartItem
deriving DecidableEq

/-- Loop `for p in general.products: if p['id'] == pid: ...; break` followed
by `p['stock'] += d` on the found dict: add `d` to the stock of the first
product whose id matches, leaving the list unchanged when none matches.
The three call sites use d = -1 (add_to_cart), d = -diff (update_cart_item)
and d = quantity (remove_from_cart / clear_cart). -/
def addStockFirst (pid : ℤ) (d : ℤ) : List Product → List Product
  | [] => []
  | p :: ps =>
    if p.id == pid then ⟨p.id, p.name, p.price, p.stock + d⟩ :: ps
    else p :: addStockFirst pid d ps

/-- Loop `for item in general.cart: if item['product_id'] == pid:
item['quantity'] += 1; break` in add_to_cart: increment the quantity of the
first matching cart line. -/
def incQtyFirst (pid : ℤ) : List CartItem → List CartItem
  | [] => []
  | it :: its =>
    if it.product_id == pid then
      ⟨it.product_id, it.quantity + 1, it.name, it.price⟩ :: its
    else it :: incQtyFirst pid its

/-- cart_management.add_to_cart: look the product up in the inventory;
silently return on unknown id or stock ≤ 0; otherwise increment the first
matching cart line (or append a new line with quantity 1, name and price
denormalized from the argument) and decrement the found product's stock. -/
def add_to_cart (st : Store) (product : Product) : Store :=
  match st.products.find? (fun p => p.id == product.id) with
  | none => st
  | some pInv =>
    if pInv.stock ≤ 0 then st
    else
      let cart' :=
        if st.cart.any (fun item => item.product_id == product.id) then
          incQtyFirst product.id st.cart
        else
          st.cart ++ [⟨product.id, 1, product.name, product.price⟩]
      ⟨addStockFirst product.id (-1) st.products, cart'⟩

/-- cart_management.view_cart's return value: 0.0 on an empty cart, else the
sum of price × quantity over the cart lines. -/
def cart_total (cart : List CartItem) : ℚ :=
  (cart.map (fun item => item.price * (item.quantity : ℚ))).sum

/-- cart_management.update_cart_item: bounds check, positivity check, look up
the referenced product (failure when absent), refuse an increase larger than
the available stock, otherwise set the line's quantity and subtract the
signed difference from the product's stock.  Returns the new state and the
Python return value. -/
def update_cart_item (st : Store) (item_id : ℤ) (quantity : ℤ) : Store × Bool :=
  if item_id < 0 ∨ (st.cart.length : ℤ) ≤ item_id then (st, false)
  else if quantity ≤ 0 then (st, false)
  else
    match st.cart.get? item_id.toNat with
    | none => (st, false)
    | some item =>
      match st.products.find? (fun p => p.id == item.product_id) with
      | none => (st, false)
      | some product =>
        let quantity_diff := quantity - item.quantity
        if 0 < quantity_diff ∧ product.stock < quantity_diff then (st, false)
        else
          (⟨addStockFirst item.product_id (-quantity_diff) st.products,
            st.cart.set item_id.toNat
              ⟨item.product_id, quantity, item.name, item.price⟩⟩, true)

/-- cart_management.remove_from_cart: bounds check, return the line's full
quantity to the first matching product (nothing restored when none matches),
delete the line. -/
def remove_from_cart (st : Store) (item_index : ℤ) : Store × Bool :=
  if item_index < 0 ∨ (st.cart.length : ℤ) ≤ item_index then (st, false)
  else
    match st.cart.get? item_index.toNat with
    | none => (st, false)
    | some item =>
      (⟨addStockFirst item.product_id item.quantity st.products,
        st.cart.eraseIdx item_index.toNat⟩, true)

/-- cart_management.clear_cart: return every line's quantity to its product
(first id match, scanned left to right) and empty the cart; a no-op on an
empty cart. -/
def clear_cart (st : Store) : Store :=
  if st.cart = [] then st
  else
    ⟨st.cart.foldl (fun ps item => addStockFirst item.product_id item.quantity ps)
       st.products, []⟩

/-- cart_management.checkout, with the current user's balance passed in and
the confirmation prompt's answer as a parameter.  Returns the new store, the
new balance, and whether `general.save_users()` was reached.  Mirrors the
source's order: empty-cart sentinel (total == 0) first, then the funds
check, then the confirmation. -/
def checkout (st : Store) (balance : ℚ) (confirm : Str) : Store × ℚ × Bool :=
  let total := cart_total st.cart
  if total = 0 then (st, balance, false)
  else if balance < total then (st, balance, false)
  else if pyLower (pyStrip confirm) = ['y'] then
    (⟨st.products, []⟩, balance - total, true)
  else (st, balance, false)

/-- One user action on the cart engine (the mutating calls of
cart_management reachable from the purchase menu). -/
inductive CartOp where
  | add (product : Product)
  | update (item_id quantity : ℤ)
  | remove (item_index : ℤ)
  | clear
deriving DecidableEq

/-- Apply one cart operation, discarding the boolean results. -/
def applyOp (st : Store) : CartOp → Store
  | .add p => add_to_cart st p
  | .update i q => (update_cart_item st i q).1
  | .remove i => (remove_from_cart st i).1
  | .clear => clear_cart st

/-- Run a sequence of cart operations from a state. -/
def runOps (st : Store) (ops : List CartOp) : Store :=
  ops.foldl applyOp st

/-- Total quantity the cart holds of a given product id. -/
def cartQty (cart : List CartItem) (pid : ℤ) : ℤ :=
  ((cart.filter (fun it => it.product_id == pid)).map CartItem.quantity).sum

/-- Removal of one trailing newline: in Python `re`, the `$` anchor also
matches just before a newline that ends the string, and neither `\S` nor `.`
can consume a newline, so for the two patterns below a string matches
exactly when the string with one trailing newline removed matches fully. -/
def dropNL (s : Str) : Str :=
  if s.getLast? = some '\n' then s.dropLast else s

/-- validation.validate_email: `re.match(r"^\S+@\S+\.\S+$", mail)`.  The
pattern matches exactly the strings (up to one trailing newline) that split
as `a ++ "@" ++ b ++ "." ++ c` with `a`, `b`, `c` nonempty and whitespace
free; since `@` and `.` are themselves non-whitespace, that holds exactly
when the body is whitespace free and carries an `@` at some index i ≥ 1 and
a `.` at some index j with i + 2 ≤ j ≤ length - 2. -/
def validate_email (mail : Str) : Bool :=
  let body := dropNL mail
  body.all (fun c => !isPySpace c) &&
  (List.range body.length).any (fun i =>
    (List.range body.length).any (fun j =>
      body.getD i ' ' == '@' && body.getD j ' ' == '.' &&
      decide (1 ≤ i) && decide (i + 2 ≤ j) && decide (j + 2 ≤ body.length)))

/-- The character class `[#?!@$%^&*-]` of PASSWORD_VALIDATE_PATTERN. -/
def pwSpecials : Str := ['#', '?', '!', '@', '$', '%', '^', '&', '*', '-']

/-- validation.validate_password: `re.match` of
`^(?=.*?[A-Z])(?=.*?[a-z])(?=.*?[0-9])(?=.*?[#?!@$%^&*-]).{16,}$`.  The dot
never matches a newline, so the pattern matches exactly when the body (the
string up to one trailing newline) is newline free, at least 16 characters
long, and contains an upper-case letter, a lower-case letter, a digit and
one of the ten special characters. -/
def validate_password (password : Str) : Bool :=
  let body := dropNL password
  decide (16 ≤ body.length) && body.all (fun c => c != '\n') &&
  body.any (fun c => decide ('A' ≤ c) && decide (c ≤ 'Z')) &&
  body.any (fun c => decide ('a' ≤ c) && decide (c ≤ 'z')) &&
  body.any (fun c => decide ('0' ≤ c) && decide (c ≤ '9')) &&
  body.any (fun c => pwSpecials.contains c)

/-- string.digits. -/
def pyDigits : Str := (List.range 10).map (fun n => Char.ofNat (48 + n))

/-- string.ascii_lowercase. -/
def pyAsciiLowercase : Str := (List.range 26).map (fun n => Char.ofNat (97 + n))

/-- string.ascii_uppercase. -/
def pyAsciiUppercase : Str := (List.range 26).map (fun n => Char.ofNat (65 + n))

/-- string.punctuation: the 32 printable ASCII characters that are neither
alphanumeric nor whitespace (codes 33-47, 58-64, 91-96 and 123-126). -/
def pyPunctuation : Str :=
  ((List.range 128).map Char.ofNat).filter (fun c =>
    (decide (33 ≤ c.toNat) && decide (c.toNat ≤ 47)) ||
    (decide (58 ≤ c.toNat) && decide (c.toNat ≤ 64)) ||
    (decide (91 ≤ c.toNat) && decide (c.toNat ≤ 96)) ||
    (decide (123 ≤ c.toNat) && decide (c.toNat ≤ 126)))

/-- authentication.generate_password's `all_pass_chars`: digits + lowercase
+ uppercase + `sym_pass_chars[0]` — the source concatenates only the first
punctuation character (`!`), not the whole set. -/
def allPassChars : Str :=
  pyDigits ++ pyAsciiLowercase ++ pyAsciiUppercase ++ [pyPunctuation.headI]

/-- authentication.generate_password before the final `random.shuffle`: the
four mandatory `random.choice` picks followed by the twelve filler picks.
Randomness is modelled by quantifying over every choice the generator can
make: the sixteen picked characters and, for the shuffle, an arbitrary
permutation of this list. -/
def generate_password (d l u s : Char) (fill : Str) : Str :=
  [d, l, u, s] ++ fill

/-- The possible outcomes of the `random.choice` calls in
generate_password. -/
def ValidChoices (d l u s : Char) (fill : Str) : Prop :=
  d ∈ pyDigits ∧ l ∈ pyAsciiLowercase ∧ u ∈ pyAsciiUppercase ∧
  s ∈ pyPunctuation ∧ fill.length = 12 ∧ ∀ c ∈ fill, c ∈ allPassChars

/-- User record of `general.users`: keys username, email, password_hash,
balance. -/
structure UserR where
  username : Str
  email : Str
  password_hash : Str
  balance : ℚ
deriving DecidableEq

/-- One pass of authentication.sign_up_user's username loop on a given
input: the input is stripped and rejected (the `while` loop re-prompts) when
empty, shorter than two characters, or not alphanumeric.  The duplicate scan
`for user in general.users: if user['username'] == u: print(...); continue`
prints a warning, but its `continue` targets the `for` loop rather than the
enclosing `while`, so control always falls through to the `break` that
follows the scan: the username is accepted whether or not it already exists
in the store. -/
def usernameStepAccepts (users : List UserR) (input : Str) : Bool :=
  let u := pyStrip input
  let _duplicateWarned := users.any (fun user => user.username == u)
  if u = [] then false
  else if u.length < 2 then false
  else if !(u.all Char.isAlphanum) then false
  else true

/-- Tail of authentication.sign_up_user once a username, an email and a
password hash have been accepted: the new record, with balance 0, is
appended to `general.users` and the store is saved. -/
def sign_up_append (users : List UserR) (u e phash : Str) : List UserR :=
  users ++ [⟨u, e, phash, 0⟩]

/-- Decimal digit characters of a natural number, most significant first
(with `"0"` for zero), as produced by Python's integer-to-string
conversion. -/
def natToChars (n : ℕ) : Str :=
  if n = 0 then ['0'] else ((Nat.digits 10 n).map Nat.digitChar).reverse

/-- Numeric value of a string of decimal digit characters. -/
def charsToNat (s : Str) : ℕ :=
  Nat.ofDigits 10 ((s.map (fun c => c.toNat - 48)).reverse)

/-- Smallest exponent k with den ∣ 10 ^ k, searched over 0..den; every
denominator of a finite decimal divides 10 ^ den, so the search is wide
enough. -/
def decExp (den : ℕ) : ℕ :=
  ((List.range (den + 1)).find? (fun k => decide (den ∣ 10 ^ k))).getD den

/-- Rationals that are finite decimals, that is, whose denominator divides a
power of ten; every value a Python float can take is one (floats are dyadic
rationals). -/
def IsDecimalRat (q : ℚ) : Prop := q.den ∣ 10 ^ q.den

/-- Decimal digits of m left-padded with zeros to width k. -/
def padZeros (k : ℕ) (m : ℕ) : Str :=
  List.replicate (k - (natToChars m).length) '0' ++ natToChars m

/-- Python `str()` of a nonnegative finite-decimal float, as interpolated by
general.save_users's f-string: the exact decimal expansion with at least one
fractional digit (`str(0.0)` is `"0.0"`, `str(2.5)` is `"2.5"`).  CPython
prints the shortest decimal that reparses to the same float; on the exact
rational model this is the decimal expansion of the value itself. -/
def formatFloat (q : ℚ) : Str :=
  let k := max (decExp q.den) 1
  let n := q.num.toNat * 10 ^ k / q.den
  natToChars (n / 10 ^ k) ++ '.' :: padZeros k (n % 10 ^ k)

/-- Python `str.split(sep)` for a one-character separator. -/
def splitOnChar (sep : Char) : Str → List Str
  | [] => [[]]
  | c :: cs =>
    match splitOnChar sep cs with
    | [] => [[c]]
    | h :: t => if c = sep then [] :: h :: t else (c :: h) :: t

/-- Python `float()` on the decimal literals the credential store can
contain: an optional sign, integer digits, an optional point and fraction
digits.  (The full `float()` grammar also accepts exponents and named
constants, which general.save_users never emits.) -/
def parseUnsignedFloat (s : Str) : Option ℚ :=
  match splitOnChar '.' s with
  | [a] =>
    if a ≠ [] ∧ a.all Char.isDigit then some ((charsToNat a : ℚ)) else none
  | [a, b] =>
    if (a ≠ [] ∨ b ≠ []) ∧ a.all Char.isDigit ∧ b.all Char.isDigit then
      some ((charsToNat a : ℚ) + (charsToNat b : ℚ) / 10 ^ b.length)
    else none
  | _ => none

/-- Signed entry point of the float parse. -/
def parseFloat (s : Str) : Option ℚ :=
  match s with
  | [] => none
  | c :: rest =>
    if c = '-' then (parseUnsignedFloat rest).map (fun q => -q)
    else if c = '+' then parseUnsignedFloat rest
    else parseUnsignedFloat (c :: rest)

/-- One line of general.save_users's output:
`f"{username},{email},{password_hash},{balance}\n"`. -/
def saveLine (u : UserR) : Str :=
  u.username ++ ',' :: u.email ++ ',' :: u.password_hash ++ ',' ::
    formatFloat u.balance ++ ['\n']

/-- general.save_users: overwrite the whole store, one line per user. -/
def save_users (users : List UserR) : Str :=
  (users.map saveLine).flatten

/-- Body of general.load_users's per-line try block after the line has been
stripped: split on commas into exactly four fields (anything else raises a
ValueError and skips the line), strip each field, skip the line when
username, email or password hash strips to empty, parse the balance (a parse
failure skips), and skip negative balances. -/
def parseUserLine (line : Str) : Option UserR :=
  match splitOnChar ',' line with
  | [a, b, c, d] =>
    let u := pyStrip a
    let e := pyStrip b
    let h := pyStrip c
    if u = [] ∨ e = [] ∨ h = [] then none
    else
      match parseFloat (pyStrip d) with
      | none => none
      | some bal => if bal < 0 then none else some ⟨u, e, h, bal⟩
  | _ => none

/-- general.load_users on a file content: iterate over the lines, strip
each, skip blank lines, parse the rest, and collect the surviving
records. -/
def load_users (content : Str) : List UserR :=
  (splitOnChar '\n' content).filterMap (fun rawLine =>
    let line := pyStrip rawLine
    if line = [] then none else parseUserLine line)

/-- Validity C6 requires of a record: username, email and password hash
non-empty after trimming and free of commas and newlines, balance a numeric
value that is nonnegative. -/
def claimValidUser (u : UserR) : Prop :=
  pyStrip u.username ≠ [] ∧ pyStrip u.email ≠ [] ∧ pyStrip u.password_hash ≠ [] ∧
  (∀ c ∈ u.username, c ≠ ',' ∧ c ≠ '\n') ∧
  (∀ c ∈ u.email, c ≠ ',' ∧ c ≠ '\n') ∧
  (∀ c ∈ u.password_hash, c ≠ ',' ∧ c ≠ '\n') ∧
  0 ≤ u.balance ∧ IsDecimalRat u.balance

/-- Strengthened validity under which the save/load round trip holds: in
addition each text field is unchanged by stripping, that is, carries no
leading or trailing whitespace. -/
def storableUser (u : UserR) : Prop :=
  claimValidUser u ∧
  pyStrip u.username = u.username ∧ pyStrip u.email = u.email ∧
  pyStrip u.password_hash = u.password_hash

/-- Behaviour C3 ascribes to update_cart_item at one input, written from the
spec's words: failure with the state unchanged exactly on an out-of-bounds
index, a non-positive quantity, or an increase beyond the referenced
product's stock; otherwise the line's quantity is set, the signed difference
is subtracted from that product's stock, and the call succeeds. -/
def updateClaimAt (st : Store) (i q : ℤ) : Prop :=
  let r := update_cart_item st i q
  if i < 0 ∨ (st.cart.length : ℤ) ≤ i ∨ q ≤ 0 then r = (st, false)
  else
    match st.cart.get? i.toNat with
    | none => True
    | some item =>
      let diff := q - item.quantity
      match st.products.find? (fun p => p.id == item.product_id) with
      | some p =>
        if 0 < diff ∧ p.stock < diff then r = (st, false)
        else
          r.2 = true ∧
          r.1.cart = st.cart.set i.toNat ⟨item.product_id, q, item.name, item.price⟩ ∧
          r.1.products = addStockFirst item.product_id (-diff) st.products
      | none =>
        r.2 = true ∧
        r.1.cart = st.cart.set i.toNat ⟨item.product_id, q, item.name, item.price⟩ ∧
        r.1.products = st.products

/-- The conservation law of the spec, relative to the initially loaded
inventory P0: the current products correspond one to one with P0, ids and
order preserved, and each product's stock plus the cart's total quantity for
its id equals its initial stock. -/
def Conserved (P0 : List Product) (st : Store) : Prop :=
  List.Forall₂
    (fun p0 p => p.id = p0.id ∧ p.stock + cartQty st.cart p.id = p0.stock)
    P0 st.products

instance (q : ℚ) : Decidable (IsDecimalRat q) :=
  inferInstanceAs (Decidable (q.den ∣ 10 ^ q.den))

instance (d l u s : Char) (fill : Str) : Decidable (ValidChoices d l u s fill) := by
  unfold ValidChoices
  infer_instance

instance (u : UserR) : Decidable (claimValidUser u) := by
  unfold claimValidUser
  infer_instance

instance (u : UserR) : Decidable (storableUser u) := by
  unfold storableUser
  infer_instance

instance (st : Store) (i q : ℤ) : Decidable (updateClaimAt st i q) := by
  unfold updateClaimAt
  split
  · infer_instance
  · split
    · infer_instance
    · split
      · dsimp only
        split
        · infer_instance
        · infer_instance
      · infer_instance

/-- Shape C8 ascribes to an accepted email, written from the spec's words:
the string contains a non-whitespace character, an `@` with a non-whitespace
character on each side, and a `.` with a non-whitespace character on each
side. -/
def emailClaimShape (s : Str) : Prop :=
  (∃ c ∈ s, ¬ (isPySpace c = true)) ∧
  (∃ i, 1 ≤ i ∧ i + 1 < s.length ∧ s.getD i ' ' = '@' ∧
    ¬ (isPySpace (s.getD (i - 1) ' ') = true) ∧
    ¬ (isPySpace (s.getD (i + 1) ' ') = true)) ∧
  (∃ j, 1 ≤ j ∧ j + 1 < s.length ∧ s.getD j ' ' = '.' ∧
    ¬ (isPySpace (s.getD (j - 1) ' ') = true) ∧
    ¬ (isPySpace (s.getD (j + 1) ' ') = true))

/-! ## Theorems -/

theorem addStockFirst_not_mem {pid d : ℤ} :
    ∀ {ps : List Product}, (∀ p ∈ ps, p.id ≠ pid) → addStockFirst pid d ps = ps := by
  intro ps h
  induction ps with
  | nil => rfl
  | cons p ps ih =>
    have hp : (p.id == pid) = false := by
      simp only [beq_eq_false_iff_ne, ne_eq]
      exact h p (List.mem_cons_self p ps)
    simp only [addStockFirst, hp, Bool.false_eq_true, if_false, List.cons.injEq, true_and]
    exact ih (fun q hq => h q (List.mem_cons_of_mem p hq))

/-- C2: checkout fails (store, balance unchanged, nothing persisted) when the
total exceeds the balance; on a positive affordable total with a confirming
answer it debits the balance by the total, empties the cart, leaves the
product stocks untouched and persists; and a zero total (the empty-cart
sentinel) is a no-op. -/
theorem checkout_correct (st : Store) (balance : ℚ) (confirm : Str) :
    (balance < cart_total st.cart →
      checkout st balance confirm = (st, balance, false)) ∧
    (0 < cart_total st.cart → cart_total st.cart ≤ balance →
      pyLower (pyStrip confirm) = ['y'] →
      checkout st balance confirm =
        (⟨st.products, []⟩, balance - cart_total st.cart, true)) ∧
    (cart_total st.cart = 0 → checkout st balance confirm = (st, balance, false)) := by
  unfold checkout
  refine ⟨?_, ?_, ?_⟩
  · intro h
    by_cases h0 : cart_total st.cart = 0
    · rw [if_pos h0]
    · rw [if_neg h0, if_pos h]
  · intro h1 h2 h3
    rw [if_neg (ne_of_gt h1), if_neg (not_lt.mpr h2), if_pos h3]
  · intro h
    rw [if_pos h]

/-- Witness for checkout_correct: a cart worth 5 against a balance of 10,
confirmed with a sloppy " Y " answer, is debited and emptied. -/
theorem checkout_correct_witness :
    checkout ⟨[], [⟨1, 1, ['a'], 5⟩]⟩ 10 [' ', 'Y'] =
      (⟨[], []⟩, 10 - cart_total [⟨1, 1, ['a'], 5⟩], true) :=
  (checkout_correct ⟨[], [⟨1, 1, ['a'], 5⟩]⟩ 10 [' ', 'Y']).2.1
    (by norm_num [cart_total]) (by norm_num [cart_total]) (by decide)

/-- C10: whatever else holds of the state, an answer to the confirmation
prompt other than (stripped, lowercased) "y" leaves the store and the
balance unchanged and does not reach save_users. -/
theorem checkout_requires_confirmation (st : Store) (balance : ℚ) (confirm : Str)
    (hne : st.cart ≠ []) (hb : cart_total st.cart ≤ balance)
    (hc : pyLower (pyStrip confirm) ≠ ['y']) :
    checkout st balance confirm = (st, balance, false) := by
  unfold checkout
  by_cases h0 : cart_total st.cart = 0
  · rw [if_pos h0]
  · rw [if_neg h0, if_neg (not_lt.mpr hb), if_neg hc]

/-- Witness for checkout_requires_confirmation: answering "n" on an
affordable non-empty cart changes nothing. -/
theorem checkout_requires_confirmation_witness :
    checkout ⟨[], [⟨1, 1, ['a'], 5⟩]⟩ 10 ['n'] = (⟨[], [⟨1, 1, ['a'], 5⟩]⟩, 10, false) :=
  checkout_requires_confirmation ⟨[], [⟨1, 1, ['a'], 5⟩]⟩ 10 ['n']
    (by decide) (by norm_num [cart_total]) (by decide)

/-- C9: on any in-bounds index remove_from_cart returns True and deletes the
line, and when no product in the inventory carries the line's product id the
inventory is left entirely unchanged (the dropped quantity is restored
nowhere). -/
theorem remove_from_cart_valid (st : Store) (i : ℤ)
    (h0 : 0 ≤ i) (hlt : i < (st.cart.length : ℤ)) :
    (remove_from_cart st i).2 = true ∧
    (remove_from_cart st i).1.cart = st.cart.eraseIdx i.toNat ∧
    (∀ item, st.cart.get? i.toNat = some item →
      (∀ p ∈ st.products, p.id ≠ item.product_id) →
      (remove_from_cart st i).1.products = st.products) := by
  have hcond : ¬(i < 0 ∨ (st.cart.length : ℤ) ≤ i) := by omega
  have hn : i.toNat < st.cart.length := by omega
  obtain ⟨item, hitem⟩ : ∃ item, st.cart.get? i.toNat = some item :=
    ⟨_, List.get?_eq_get hn⟩
  unfold remove_from_cart
  rw [if_neg hcond]
  simp only [hitem]
  refine ⟨trivial, trivial, ?_⟩
  intro item2 hget hnone
  injection hget with he
  subst he
  exact addStockFirst_not_mem hnone

/-- Witness for remove_from_cart_valid: removing a line whose product id 5
matches nothing in the inventory succeeds, deletes the line and restores no
stock. -/
theorem remove_from_cart_valid_witness :
    (remove_from_cart ⟨[⟨1, ['a'], 2, 10⟩], [⟨5, 3, ['g'], 7⟩]⟩ 0).2 = true ∧
    (remove_from_cart ⟨[⟨1, ['a'], 2, 10⟩], [⟨5, 3, ['g'], 7⟩]⟩ 0).1.cart =
      [⟨5, 3, ['g'], 7⟩].eraseIdx (0 : ℤ).toNat ∧
    (remove_from_cart ⟨[⟨1, ['a'], 2, 10⟩], [⟨5, 3, ['g'], 7⟩]⟩ 0).1.products =
      [⟨1, ['a'], 2, 10⟩] := by
  have h := remove_from_cart_valid ⟨[⟨1, ['a'], 2, 10⟩], [⟨5, 3, ['g'], 7⟩]⟩ 0
    (by decide) (by decide)
  exact ⟨h.1, h.2.1, h.2.2 ⟨5, 3, ['g'], 7⟩ (by decide) (by decide)⟩

/-- C5 (code bug): the username loop of sign_up_user accepts an entered
username equal to a stored one — the duplicate scan's `continue` only
advances the inner `for` loop, after which `break` accepts — and the signup
then appends a record with the duplicate username to the store. -/
theorem sign_up_duplicate_username_appended :
    usernameStepAccepts [⟨['a', 'b'], ['e'], ['h'], 0⟩] ['a', 'b'] = true ∧
    ¬ (((sign_up_append [⟨['a', 'b'], ['e'], ['h'], 0⟩] ['a', 'b'] ['e', '2'] ['h', '2']).map
        UserR.username).Nodup) := by
  decide

/-- Counterexample to C7 as stated: the generator may pick `(` as its one
guaranteed symbol and fillers without any symbol of the validator's class
`[#?!@$%^&*-]`; the resulting password fails validate_password. -/
theorem generate_password_policy_cex :
    ValidChoices '0' 'a' 'A' '(' (List.replicate 12 '0') ∧
    validate_password (generate_password '0' 'a' 'A' '(' (List.replicate 12 '0')) = false := by
  decide

/-- Counterexample to C3 as stated: with an empty inventory and a cart line
referencing product 1, update_cart_item 0 2 hits none of the claim's failure
conditions yet fails and changes nothing, because the referenced product is
missing from the inventory. -/
theorem update_cart_item_claim_cex :
    ¬ updateClaimAt ⟨[], [⟨1, 1, ['x'], 0⟩]⟩ 0 2 := by
  decide

/-- Evaluation step: the balance string written for a zero balance parses
back to zero. -/
theorem parseFloat_zero_str : parseFloat ['0', '.', '0'] = some 0 := by
  have h1 : parseFloat ['0', '.', '0'] =
      some ((charsToNat ['0'] : ℚ) + (charsToNat ['0'] : ℚ) / 10 ^ (1 : ℕ)) := rfl
  have h2 : charsToNat ['0'] = 0 := by decide
  rw [h1, h2]
  norm_num

/-- Evaluation step: the stripped line written for the counterexample user
parses to the record with the stripped username. -/
theorem parseUserLine_cexLine :
    parseUserLine ['a', 'b', ',', 'e', ',', 'h', ',', '0', '.', '0'] =
      some ⟨['a', 'b'], ['e'], ['h'], 0⟩ := by
  unfold parseUserLine
  rw [show splitOnChar ',' ['a', 'b', ',', 'e', ',', 'h', ',', '0', '.', '0'] =
      [['a', 'b'], ['e'], ['h'], ['0', '.', '0']] from by decide]
  dsimp only
  rw [show pyStrip ['a', 'b'] = ['a', 'b'] from by decide,
    show pyStrip ['e'] = ['e'] from by decide,
    show pyStrip ['h'] = ['h'] from by decide,
    show pyStrip ['0', '.', '0'] = ['0', '.', '0'] from by decide, parseFloat_zero_str]
  norm_num
  intro h
  exact absurd h (by decide)

/-- Evaluation step: loading the saved counterexample file yields the record
with the leading blank stripped off the username. -/
theorem load_users_cexContent :
    load_users [' ', 'a', 'b', ',', 'e', ',', 'h', ',', '0', '.', '0', '\n'] =
      [⟨['a', 'b'], ['e'], ['h'], 0⟩] := by
  unfold load_users
  rw [show splitOnChar '\n' [' ', 'a', 'b', ',', 'e', ',', 'h', ',', '0', '.', '0', '\n'] =
      [[' ', 'a', 'b', ',', 'e', ',', 'h', ',', '0', '.', '0'], []] from by decide]
  simp only [List.filterMap_cons, List.filterMap_nil]
  rw [show pyStrip [' ', 'a', 'b', ',', 'e', ',', 'h', ',', '0', '.', '0'] =
      ['a', 'b', ',', 'e', ',', 'h', ',', '0', '.', '0'] from by decide]
  rw [show pyStrip ([] : Str) = [] from by decide]
  simp [parseUserLine_cexLine]

/-- Counterexample to C6 as stated: a username with a leading blank is
non-empty after trimming and free of commas and newlines, yet the round trip
loses the blank, because load_users strips each line and each field. -/
theorem save_load_round_trip_cex :
    claimValidUser ⟨[' ', 'a', 'b'], ['e'], ['h'], 0⟩ ∧
    load_users (save_users [⟨[' ', 'a', 'b'], ['e'], ['h'], 0⟩]) ≠
      [⟨[' ', 'a', 'b'], ['e'], ['h'], 0⟩] := by
  constructor
  · decide
  · rw [show save_users [⟨[' ', 'a', 'b'], ['e'], ['h'], 0⟩] =
        [' ', 'a', 'b', ',', 'e', ',', 'h', ',', '0', '.', '0', '\n'] from by decide,
      load_users_cexContent]
    decide

theorem pyDigits_props : ∀ c ∈ pyDigits, ('0' ≤ c ∧ c ≤ '9') ∧ c ≠ '\n' := by
  decide

theorem pyAsciiLowercase_props : ∀ c ∈ pyAsciiLowercase, ('a' ≤ c ∧ c ≤ 'z') ∧ c ≠ '\n' := by
  decide

theorem pyAsciiUppercase_props : ∀ c ∈ pyAsciiUppercase, ('A' ≤ c ∧ c ≤ 'Z') ∧ c ≠ '\n' := by
  decide

theorem pyPunctuation_noNL : ∀ c ∈ pyPunctuation, c ≠ '\n' := by
  decide

theorem allPassChars_noNL : ∀ c ∈ allPassChars, c ≠ '\n' := by
  decide

theorem dropNL_eq_self {s : Str} (h : ∀ c ∈ s, c ≠ '\n') : dropNL s = s := by
  unfold dropNL
  rcases hgl : s.getLast? with _ | c
  · rw [if_neg (by simp [hgl])]
  · have hc : c ≠ '\n' := h c (List.mem_of_mem_getLast? hgl)
    rw [if_neg (by simp [hgl, hc])]

/-- C7 amended: every password the generator can emit — for any outcome of
its random choices and any shuffle — has length 16 and contains a digit, a
lower-case letter, an upper-case letter and a punctuation character; and
whenever the picked symbol lands in the validator's class `[#?!@$%^&*-]`
the password passes validate_password.  (The unconditional claim fails:
see the counterexample.) -/
theorem generate_password_properties (d l u s : Char) (fill : Str)
    (hc : ValidChoices d l u s fill) (result : Str)
    (hperm : result.Perm (generate_password d l u s fill)) :
    result.length = 16 ∧
    (∃ c ∈ result, '0' ≤ c ∧ c ≤ '9') ∧
    (∃ c ∈ result, 'a' ≤ c ∧ c ≤ 'z') ∧
    (∃ c ∈ result, 'A' ≤ c ∧ c ≤ 'Z') ∧
    (∃ c ∈ result, c ∈ pyPunctuation) ∧
    (s ∈ pwSpecials → validate_password result = true) := by
  obtain ⟨hd, hl, hu, hs, hlen, hfill⟩ := hc
  have hdres : d ∈ result := hperm.mem_iff.mpr (by simp [generate_password])
  have hlres : l ∈ result := hperm.mem_iff.mpr (by simp [generate_password])
  have hures : u ∈ result := hperm.mem_iff.mpr (by simp [generate_password])
  have hsres : s ∈ result := hperm.mem_iff.mpr (by simp [generate_password])
  have hlenres : result.length = 16 := by
    rw [hperm.length_eq]
    simp [generate_password, hlen]
  have hnl : ∀ c ∈ result, c ≠ '\n' := by
    intro c hcres
    have hcpre : c ∈ generate_password d l u s fill := hperm.mem_iff.mp hcres
    simp only [generate_password, List.mem_append, List.mem_cons,
      List.not_mem_nil, or_false] at hcpre
    rcases hcpre with (rfl | rfl | rfl | rfl) | hcfill
    · exact (pyDigits_props c hd).2
    · exact (pyAsciiLowercase_props c hl).2
    · exact (pyAsciiUppercase_props c hu).2
    · exact pyPunctuation_noNL c hs
    · exact allPassChars_noNL c (hfill c hcfill)
  refine ⟨hlenres, ⟨d, hdres, (pyDigits_props d hd).1⟩, ⟨l, hlres, (pyAsciiLowercase_props l hl).1⟩,
    ⟨u, hures, (pyAsciiUppercase_props u hu).1⟩, ⟨s, hsres, hs⟩, ?_⟩
  intro hsp
  unfold validate_password
  rw [dropNL_eq_self hnl]
  simp only [Bool.and_eq_true, List.all_eq_true, List.any_eq_true, decide_eq_true_eq,
    bne_iff_ne, ne_eq]
  obtain ⟨hu1, hu2⟩ := (pyAsciiUppercase_props u hu).1
  obtain ⟨hl1, hl2⟩ := (pyAsciiLowercase_props l hl).1
  obtain ⟨hd1, hd2⟩ := (pyDigits_props d hd).1
  refine ⟨⟨⟨⟨⟨by omega, fun c hcr => hnl c hcr⟩, ⟨u, hures, by simp [hu1, hu2]⟩⟩,
    ⟨l, hlres, by simp [hl1, hl2]⟩⟩, ⟨d, hdres, by simp [hd1, hd2]⟩⟩,
    ⟨s, hsres, List.elem_eq_true_of_mem hsp⟩⟩

/-- Witness for generate_password_properties: the unshuffled output of the
choices 0, a, A, # with twelve ! fillers. -/
theorem generate_password_properties_witness :
    (generate_password '0' 'a' 'A' '#' (List.replicate 12 '!')).length = 16 ∧
    (∃ c ∈ generate_password '0' 'a' 'A' '#' (List.replicate 12 '!'), '0' ≤ c ∧ c ≤ '9') ∧
    (∃ c ∈ generate_password '0' 'a' 'A' '#' (List.replicate 12 '!'), 'a' ≤ c ∧ c ≤ 'z') ∧
    (∃ c ∈ generate_password '0' 'a' 'A' '#' (List.replicate 12 '!'), 'A' ≤ c ∧ c ≤ 'Z') ∧
    (∃ c ∈ generate_password '0' 'a' 'A' '#' (List.replicate 12 '!'), c ∈ pyPunctuation) ∧
    ('#' ∈ pwSpecials →
      validate_password (generate_password '0' 'a' 'A' '#' (List.replicate 12 '!')) = true) :=
  generate_password_properties '0' 'a' 'A' '#' (List.replicate 12 '!') (by decide) _
    (List.Perm.refl _)

/-- C8 amended: validate_email accepts exactly the strings that, once one
trailing newline is dropped, contain no whitespace at all and carry an `@`
at some index i ≥ 1 and a `.` at some index j ≥ i + 2 with at least one
character after it.  (Whitespace anywhere — not only adjacent to the `@` or
the `.` — is rejected, and the `.` must come after the `@`.) -/
theorem validate_email_iff (mail : Str) :
    validate_email mail = true ↔
      ((∀ c ∈ dropNL mail, isPySpace c = false) ∧
       ∃ i j, 1 ≤ i ∧ i + 2 ≤ j ∧ j + 2 ≤ (dropNL mail).length ∧
         (dropNL mail).getD i ' ' = '@' ∧ (dropNL mail).getD j ' ' = '.') := by
  unfold validate_email
  simp only [Bool.and_eq_true, List.all_eq_true, List.any_eq_true, List.mem_range,
    Bool.not_eq_true', decide_eq_true_eq, beq_iff_eq]
  constructor
  · rintro ⟨hall, i, hi, j, hj, ⟨⟨⟨hA, hB⟩, hC⟩, hD⟩, hE⟩
    exact ⟨hall, i, j, hC, hD, hE, hA, hB⟩
  · rintro ⟨hall, i, j, hC, hD, hE, hA, hB⟩
    exact ⟨hall, i, by omega, j, by omega, ⟨⟨⟨hA, hB⟩, hC⟩, hD⟩, hE⟩

/-- C3 amended: update_cart_item fails leaving all state unchanged on an
out-of-bounds index, a non-positive quantity, a referenced product missing
from the inventory (the case the claim omits), or an increase beyond the
available stock; otherwise it sets the line's quantity, subtracts the signed
difference from the first matching product's stock, and returns True. -/
theorem update_cart_item_correct (st : Store) (i q : ℤ) :
    (i < 0 ∨ (st.cart.length : ℤ) ≤ i ∨ q ≤ 0 → update_cart_item st i q = (st, false)) ∧
    (∀ item, 0 ≤ i → i < (st.cart.length : ℤ) → 0 < q →
      st.cart.get? i.toNat = some item →
      ((st.products.find? (fun p => p.id == item.product_id) = none →
        update_cart_item st i q = (st, false)) ∧
      (∀ p, st.products.find? (fun p => p.id == item.product_id) = some p →
        ((0 < q - item.quantity ∧ p.stock < q - item.quantity →
          update_cart_item st i q = (st, false)) ∧
        (¬(0 < q - item.quantity ∧ p.stock < q - item.quantity) →
          update_cart_item st i q =
            (⟨addStockFirst item.product_id (-(q - item.quantity)) st.products,
              st.cart.set i.toNat ⟨item.product_id, q, item.name, item.price⟩⟩, true)))))) := by
  constructor
  · intro h
    unfold update_cart_item
    by_cases hb : i < 0 ∨ (st.cart.length : ℤ) ≤ i
    · rw [if_pos hb]
    · have hq : q ≤ 0 := by tauto
      rw [if_neg hb, if_pos hq]
  · intro item h0 hlt hq hget
    have hb : ¬(i < 0 ∨ (st.cart.length : ℤ) ≤ i) := by omega
    have hqn : ¬ q ≤ 0 := by omega
    unfold update_cart_item
    rw [if_neg hb, if_neg hqn]
    simp only [hget]
    constructor
    · intro hf
      simp only [hf]
    · intro p hf
      simp only [hf]
      constructor
      · intro hcond
        rw [if_pos hcond]
      · intro hcond
        rw [if_neg hcond]

/-- Witness for update_cart_item_correct: raising a line from quantity 2 to
5 against a stock of 10 succeeds and moves the difference 3 out of the
inventory. -/
theorem update_cart_item_correct_witness :
    update_cart_item ⟨[⟨1, ['a'], 2, 10⟩], [⟨1, 2, ['a'], 2⟩]⟩ 0 5 =
      (⟨addStockFirst 1 (-(5 - 2)) [⟨1, ['a'], 2, 10⟩],
        [⟨1, 2, ['a'], 2⟩].set (0 : ℤ).toNat ⟨1, 5, ['a'], 2⟩⟩, true) :=
  (((update_cart_item_correct ⟨[⟨1, ['a'], 2, 10⟩], [⟨1, 2, ['a'], 2⟩]⟩ 0 5).2
    ⟨1, 2, ['a'], 2⟩ (by decide) (by decide) (by decide) (by decide)).2
    ⟨1, ['a'], 2, 10⟩ (by decide)).2 (by decide)

theorem find?_eq_some_of_first {pid : ℤ} :
    ∀ {ps : List Product} {i : ℕ} {p : Product},
      (∀ j q, j < i → ps.get? j = some q → q.id ≠ pid) →
      ps.get? i = some p → p.id = pid →
      ps.find? (fun x => x.id == pid) = some p := by
  intro ps
  induction ps with
  | nil => intro i p _ hget _; simp at hget
  | cons x t ih =>
    intro i p hbefore hget hid
    cases i with
    | zero =>
      have hx : x = p := by simpa using hget
      subst hx
      exact List.find?_cons_of_pos _ (by simp [hid])
    | succ n =>
      have hx : x.id ≠ pid := hbefore 0 x (Nat.succ_pos n) rfl
      rw [List.find?_cons_of_neg _ (by simp [hx])]
      exact ih (fun j q hj hq => hbefore (j + 1) q (Nat.succ_lt_succ hj) hq)
        (by simpa using hget) hid

theorem addStockFirst_eq_set {pid d : ℤ} :
    ∀ {ps : List Product} {i : ℕ} {p : Product},
      (∀ j q, j < i → ps.get? j = some q → q.id ≠ pid) →
      ps.get? i = some p → p.id = pid →
      addStockFirst pid d ps = ps.set i ⟨p.id, p.name, p.price, p.stock + d⟩ := by
  intro ps
  induction ps with
  | nil => intro i p _ hget _; simp at hget
  | cons x t ih =>
    intro i p hbefore hget hid
    cases i with
    | zero =>
      have hx : x = p := by simpa using hget
      subst hx
      simp [addStockFirst, hid]
    | succ n =>
      have hx : x.id ≠ pid := hbefore 0 x (Nat.succ_pos n) rfl
      have hx2 : (x.id == pid) = false := by simp [hx]
      simp only [addStockFirst, hx2, Bool.false_eq_true, if_false, List.set_cons_succ,
        List.cons.injEq, true_and]
      exact ih (fun j q hj hq => hbefore (j + 1) q (Nat.succ_lt_succ hj) hq)
        (by simpa using hget) hid

theorem incQtyFirst_eq_set {pid : ℤ} :
    ∀ {cart : List CartItem} {j : ℕ} {item : CartItem},
      (∀ j2 it2, j2 < j → cart.get? j2 = some it2 → it2.product_id ≠ pid) →
      cart.get? j = some item → item.product_id = pid →
      incQtyFirst pid cart =
        cart.set j ⟨item.product_id, item.quantity + 1, item.name, item.price⟩ := by
  intro cart
  induction cart with
  | nil => intro j item _ hget _; simp at hget
  | cons x t ih =>
    intro j item hbefore hget hid
    cases j with
    | zero =>
      have hx : x = item := by simpa using hget
      subst hx
      simp [incQtyFirst, hid]
    | succ n =>
      have hx : x.product_id ≠ pid := hbefore 0 x (Nat.succ_pos n) rfl
      have hx2 : (x.product_id == pid) = false := by simp [hx]
      simp only [incQtyFirst, hx2, Bool.false_eq_true, if_false, List.set_cons_succ,
        List.cons.injEq, true_and]
      exact ih (fun j2 q hj hq => hbefore (j2 + 1) q (Nat.succ_lt_succ hj) hq)
        (by simpa using hget) hid

/-- C4: add_to_cart is the identity when the product id is absent from the
inventory or its stock is non-positive; otherwise exactly one unit moves
from inventory to cart — the first product with that id (position i) loses
one unit of stock, and either the first matching cart line (position j)
gains quantity one, or, when no line matches, a new line with quantity 1 and
the argument's name and price is appended. -/
theorem add_to_cart_correct (st : Store) (prod : Product) :
    (st.products.find? (fun p => p.id == prod.id) = none → add_to_cart st prod = st) ∧
    (∀ pInv, st.products.find? (fun p => p.id == prod.id) = some pInv →
      pInv.stock ≤ 0 → add_to_cart st prod = st) ∧
    (∀ i pInv, (∀ j p2, j < i → st.products.get? j = some p2 → p2.id ≠ prod.id) →
      st.products.get? i = some pInv → pInv.id = prod.id → 0 < pInv.stock →
      (add_to_cart st prod).products =
        st.products.set i ⟨pInv.id, pInv.name, pInv.price, pInv.stock - 1⟩ ∧
      ((∀ it ∈ st.cart, it.product_id ≠ prod.id) →
        (add_to_cart st prod).cart = st.cart ++ [⟨prod.id, 1, prod.name, prod.price⟩]) ∧
      (∀ j item, (∀ j2 it2, j2 < j → st.cart.get? j2 = some it2 → it2.product_id ≠ prod.id) →
        st.cart.get? j = some item → item.product_id = prod.id →
        (add_to_cart st prod).cart =
          st.cart.set j ⟨item.product_id, item.quantity + 1, item.name, item.price⟩)) := by
  refine ⟨?_, ?_, ?_⟩
  · intro h
    unfold add_to_cart
    simp only [h]
  · intro pInv hf hle
    unfold add_to_cart
    simp only [hf]
    rw [if_pos hle]
  · intro i pInv hbefore hget hid hpos
    have hf : st.products.find? (fun p => p.id == prod.id) = some pInv :=
      find?_eq_some_of_first hbefore hget hid
    unfold add_to_cart
    simp only [hf]
    rw [if_neg (not_le.mpr hpos)]
    dsimp only
    refine ⟨?_, ?_, ?_⟩
    · show addStockFirst prod.id (-1) st.products = _
      rw [addStockFirst_eq_set hbefore hget hid]
      norm_num [sub_eq_add_neg]
    · intro hnone
      have hany : st.cart.any (fun item => item.product_id == prod.id) = false := by
        simp only [List.any_eq_false]
        intro it hit
        simp [hnone it hit]
      show (if st.cart.any (fun item => item.product_id == prod.id) = true then _ else _) = _
      rw [if_neg (by simp [hany])]
    · intro j item hbefore2 hget2 hid2
      have hany : st.cart.any (fun it => it.product_id == prod.id) = true := by
        simp only [List.any_eq_true]
        exact ⟨item, List.get?_mem hget2, by simp [hid2]⟩
      show (if st.cart.any (fun item => item.product_id == prod.id) = true then _ else _) = _
      rw [if_pos hany]
      exact incQtyFirst_eq_set hbefore2 hget2 hid2

/-- Witness for add_to_cart_correct: adding product 1 (stock 10, second in
the inventory) to a cart already holding two of them moves one more unit. -/
theorem add_to_cart_correct_witness :
    (add_to_cart ⟨[⟨2, ['b'], 3, 4⟩, ⟨1, ['a'], 5, 10⟩], [⟨1, 2, ['a'], 5⟩]⟩
      ⟨1, ['a'], 5, 10⟩).products =
      [⟨2, ['b'], 3, 4⟩, ⟨1, ['a'], 5, 10⟩].set 1 ⟨1, ['a'], 5, 10 - 1⟩ ∧
    (add_to_cart ⟨[⟨2, ['b'], 3, 4⟩, ⟨1, ['a'], 5, 10⟩], [⟨1, 2, ['a'], 5⟩]⟩
      ⟨1, ['a'], 5, 10⟩).cart =
      [⟨1, 2, ['a'], 5⟩].set 0 ⟨1, 2 + 1, ['a'], 5⟩ := by
  have h := (add_to_cart_correct ⟨[⟨2, ['b'], 3, 4⟩, ⟨1, ['a'], 5, 10⟩], [⟨1, 2, ['a'], 5⟩]⟩
    ⟨1, ['a'], 5, 10⟩).2.2 1 ⟨1, ['a'], 5, 10⟩
    (by
      intro j p2 hj hq
      have hj0 : j = 0 := by omega
      subst hj0
      have : (⟨2, ['b'], 3, 4⟩ : Product) = p2 := by simpa using hq
      subst this
      decide)
    (by decide) (by decide) (by decide)
  exact ⟨h.1, h.2.2 0 ⟨1, 2, ['a'], 5⟩
    (by intro j2 it2 hj2 _; omega) (by decide) (by decide)⟩

theorem cartQty_nil (pid : ℤ) : cartQty [] pid = 0 := rfl

theorem cartQty_cons (it : CartItem) (cart : List CartItem) (pid : ℤ) :
    cartQty (it :: cart) pid =
      (if it.product_id = pid then it.quantity else 0) + cartQty cart pid := by
  by_cases h : it.product_id = pid
  · simp [cartQty, List.filter_cons, h]
  · simp [cartQty, List.filter_cons, h]

theorem cartQty_append (l₁ l₂ : List CartItem) (pid : ℤ) :
    cartQty (l₁ ++ l₂) pid = cartQty l₁ pid + cartQty l₂ pid := by
  simp [cartQty, List.filter_append]

theorem cartQty_incQtyFirst_ne {pid r : ℤ} (h : r ≠ pid) :
    ∀ cart, cartQty (incQtyFirst pid cart) r = cartQty cart r := by
  intro cart
  induction cart with
  | nil => rfl
  | cons it t ih =>
    by_cases hit : it.product_id = pid
    · have hne : ¬ it.product_id = r := fun hh => h (hh ▸ hit)
      simp [incQtyFirst, hit, cartQty_cons, hne, Ne.symm h]
    · simp [incQtyFirst, hit, cartQty_cons, ih]

theorem cartQty_incQtyFirst_self {pid : ℤ} :
    ∀ {cart}, (∃ it ∈ cart, it.product_id = pid) →
      cartQty (incQtyFirst pid cart) pid = cartQty cart pid + 1 := by
  intro cart h
  induction cart with
  | nil => simp at h
  | cons it t ih =>
    by_cases hit : it.product_id = pid
    · simp only [incQtyFirst, hit, beq_self_eq_true, if_true, cartQty_cons, if_pos hit]
      omega
    · have h2 : ∃ it2 ∈ t, it2.product_id = pid := by
        rcases h with ⟨it2, hmem, hid2⟩
        rcases List.mem_cons.mp hmem with rfl | hmem2
        · exact absurd hid2 hit
        · exact ⟨it2, hmem2, hid2⟩
      simp only [incQtyFirst, beq_iff_eq, hit, if_false, cartQty_cons, ih h2]
      omega

theorem cartQty_set {cart : List CartItem} {idx : ℕ} {item : CartItem} :
    cart.get? idx = some item → ∀ (new : CartItem) (r : ℤ),
      cartQty (cart.set idx new) r =
        cartQty cart r - (if item.product_id = r then item.quantity else 0)
          + (if new.product_id = r then new.quantity else 0) := by
  induction cart generalizing idx with
  | nil => intro hget; simp at hget
  | cons it t ih =>
    intro hget new r
    cases idx with
    | zero =>
      have : it = item := by simpa using hget
      subst this
      simp only [List.set_cons_zero, cartQty_cons]
      split_ifs <;> omega
    | succ n =>
      have hget2 : t.get? n = some item := by simpa using hget
      simp only [List.set_cons_succ, cartQty_cons, ih hget2 new r]
      split_ifs <;> omega

theorem cartQty_eraseIdx {cart : List CartItem} {idx : ℕ} {item : CartItem} :
    cart.get? idx = some item → ∀ r : ℤ,
      cartQty (cart.eraseIdx idx) r =
        cartQty cart r - (if item.product_id = r then item.quantity else 0) := by
  induction cart generalizing idx with
  | nil => intro hget; simp at hget
  | cons it t ih =>
    intro hget r
    cases idx with
    | zero =>
      have : it = item := by simpa using hget
      subst this
      simp only [List.eraseIdx_cons_zero, cartQty_cons]
      omega
    | succ n =>
      have hget2 : t.get? n = some item := by simpa using hget
      simp only [List.eraseIdx_cons_succ, cartQty_cons, ih hget2 r]
      omega

theorem addStockFirst_map_id (pid d : ℤ) :
    ∀ ps : List Product, (addStockFirst pid d ps).map Product.id = ps.map Product.id := by
  intro ps
  induction ps with
  | nil => rfl
  | cons p t ih =>
    by_cases h : p.id = pid
    · simp [addStockFirst, h]
    · simp [addStockFirst, h, ih]

theorem forall₂_imp_mem {α β : Type} {R S : α → β → Prop} :
    ∀ {l₁ : List α} {l₂ : List β}, List.Forall₂ R l₁ l₂ →
      (∀ a b, a ∈ l₁ → b ∈ l₂ → R a b → S a b) → List.Forall₂ S l₁ l₂ := by
  intro l₁ l₂ h
  induction h with
  | nil => intro _; exact List.Forall₂.nil
  | @cons a b t₁ t₂ hab htail ih =>
    intro himp
    exact List.Forall₂.cons (himp a b (by simp) (by simp) hab)
      (ih (fun a2 b2 ha hb hr => himp a2 b2 (by simp [ha]) (by simp [hb]) hr))

theorem forall₂_map_eq {α β γ : Type} {R : α → β → Prop} {f : α → γ} {g : β → γ} :
    ∀ {l₁ : List α} {l₂ : List β}, List.Forall₂ R l₁ l₂ →
      (∀ a b, R a b → g b = f a) → l₂.map g = l₁.map f := by
  intro l₁ l₂ h hfg
  induction h with
  | nil => rfl
  | @cons a b t₁ t₂ hab _ ih => simp [List.map_cons, hfg a b hab, ih]

/-- Updating the stock of the first product carrying pid preserves a
pointwise Forall₂ relation, provided ids are distinct so that the later
entries are untouched matches of the old relation. -/
theorem addStockFirst_forall₂ {R S : Product → Product → Prop} {pid d : ℤ} :
    ∀ {P0 ps : List Product}, List.Forall₂ R P0 ps → (ps.map Product.id).Nodup →
      (∀ p0 p, R p0 p → p.id ≠ pid → S p0 p) →
      (∀ p0 p, R p0 p → p.id = pid → S p0 ⟨p.id, p.name, p.price, p.stock + d⟩) →
      List.Forall₂ S P0 (addStockFirst pid d ps) := by
  intro P0 ps h
  induction h with
  | nil => intro _ _ _; exact List.Forall₂.nil
  | @cons a b t₁ t₂ hab htail ih =>
    intro hnd hmiss hhit
    have hnd2 : (b.id ∉ t₂.map Product.id) ∧ (t₂.map Product.id).Nodup := by
      rw [List.map_cons] at hnd
      exact List.nodup_cons.mp hnd
    by_cases hb : b.id = pid
    · have heq : addStockFirst pid d (b :: t₂) = ⟨b.id, b.name, b.price, b.stock + d⟩ :: t₂ := by
        simp [addStockFirst, hb]
      rw [heq]
      refine List.Forall₂.cons (hhit a b hab hb) ?_
      refine forall₂_imp_mem htail (fun a2 b2 _ hb2 hr => hmiss a2 b2 hr ?_)
      intro hpe
      exact hnd2.1 (hb ▸ hpe ▸ List.mem_map_of_mem Product.id hb2)
    · have heq : addStockFirst pid d (b :: t₂) = b :: addStockFirst pid d t₂ := by
        simp [addStockFirst, hb]
      rw [heq]
      exact List.Forall₂.cons (hmiss a b hab hb) (ih hnd2.2 hmiss hhit)

theorem conserved_map_id {P0 : List Product} {st : Store} (h : Conserved P0 st) :
    st.products.map Product.id = P0.map Product.id :=
  forall₂_map_eq h (fun _ _ hr => hr.1)

theorem conserved_add {P0 : List Product} {st : Store} (prod : Product)
    (hnd : (P0.map Product.id).Nodup) (h : Conserved P0 st) :
    Conserved P0 (add_to_cart st prod) := by
  have hndps : (st.products.map Product.id).Nodup := by
    rw [conserved_map_id h]; exact hnd
  unfold Conserved at h ⊢
  unfold add_to_cart
  cases hf : st.products.find? (fun p => p.id == prod.id) with
  | none => simpa using h
  | some pInv =>
    simp only
    by_cases hstock : pInv.stock ≤ 0
    · rw [if_pos hstock]; exact h
    · rw [if_neg hstock]
      dsimp only
      by_cases hany : st.cart.any (fun item => item.product_id == prod.id) = true
      · rw [if_pos hany]
        have hex : ∃ it ∈ st.cart, it.product_id = prod.id := by
          simpa [List.any_eq_true] using hany
        apply addStockFirst_forall₂ h hndps
        · intro p0 p hr hne
          exact ⟨hr.1, by rw [cartQty_incQtyFirst_ne hne]; exact hr.2⟩
        · intro p0 p hr hpe
          refine ⟨hr.1, ?_⟩
          dsimp only
          rw [hpe, cartQty_incQtyFirst_self hex]
          have h2 := hr.2
          rw [hpe] at h2
          omega
      · rw [if_neg hany]
        apply addStockFirst_forall₂ h hndps
        · intro p0 p hr hne
          refine ⟨hr.1, ?_⟩
          rw [cartQty_append, cartQty_cons, cartQty_nil]
          have : ¬ ((⟨prod.id, 1, prod.name, prod.price⟩ : CartItem).product_id = p.id) :=
            fun hh => hne (by simpa using hh.symm)
          rw [if_neg this]
          have h2 := hr.2
          omega
        · intro p0 p hr hpe
          refine ⟨hr.1, ?_⟩
          dsimp only
          rw [hpe, cartQty_append, cartQty_cons, cartQty_nil]
          rw [if_pos (by simp)]
          have hq1 : (⟨prod.id, 1, prod.name, prod.price⟩ : CartItem).quantity = 1 := rfl
          rw [hq1]
          have h2 := hr.2
          rw [hpe] at h2
          omega

theorem conserved_update {P0 : List Product} {st : Store} (i q : ℤ)
    (hnd : (P0.map Product.id).Nodup) (h : Conserved P0 st) :
    Conserved P0 (update_cart_item st i q).1 := by
  have hndps : (st.products.map Product.id).Nodup := by
    rw [conserved_map_id h]; exact hnd
  unfold update_cart_item
  by_cases hb : i < 0 ∨ (st.cart.length : ℤ) ≤ i
  · rw [if_pos hb]; exact h
  · rw [if_neg hb]
    by_cases hq : q ≤ 0
    · rw [if_pos hq]; exact h
    · rw [if_neg hq]
      cases hget : st.cart.get? i.toNat with
      | none => simpa using h
      | some item =>
        simp only
        cases hf : st.products.find? (fun p => p.id == item.product_id) with
        | none => exact h
        | some product =>
          simp only
          by_cases hcond : 0 < q - item.quantity ∧ product.stock < q - item.quantity
          · rw [if_pos hcond]; exact h
          · rw [if_neg hcond]
            unfold Conserved at h ⊢
            dsimp only
            apply addStockFirst_forall₂ h hndps
            · intro p0 p hr hne
              refine ⟨hr.1, ?_⟩
              rw [cartQty_set hget]
              have hproj1 : (⟨item.product_id, q, item.name, item.price⟩ : CartItem).product_id
                  = item.product_id := rfl
              have hproj2 : (⟨item.product_id, q, item.name, item.price⟩ : CartItem).quantity
                  = q := rfl
              rw [hproj1, hproj2]
              have h2 := hr.2
              have hne2 : item.product_id ≠ p.id := fun hh => hne hh.symm
              split_ifs <;> omega
            · intro p0 p hr hpe
              refine ⟨hr.1, ?_⟩
              dsimp only
              rw [cartQty_set hget]
              have hproj1 : (⟨item.product_id, q, item.name, item.price⟩ : CartItem).product_id
                  = item.product_id := rfl
              have hproj2 : (⟨item.product_id, q, item.name, item.price⟩ : CartItem).quantity
                  = q := rfl
              rw [hproj1, hproj2]
              have h2 := hr.2
              split_ifs <;> omega

theorem conserved_remove {P0 : List Product} {st : Store} (i : ℤ)
    (hnd : (P0.map Product.id).Nodup) (h : Conserved P0 st) :
    Conserved P0 (remove_from_cart st i).1 := by
  have hndps : (st.products.map Product.id).Nodup := by
    rw [conserved_map_id h]; exact hnd
  unfold remove_from_cart
  by_cases hb : i < 0 ∨ (st.cart.length : ℤ) ≤ i
  · rw [if_pos hb]; exact h
  · rw [if_neg hb]
    cases hget : st.cart.get? i.toNat with
    | none => simpa using h
    | some item =>
      unfold Conserved at h ⊢
      dsimp only
      apply addStockFirst_forall₂ h hndps
      · intro p0 p hr hne
        refine ⟨hr.1, ?_⟩
        rw [cartQty_eraseIdx hget]
        have hne2 : ¬ (item.product_id = p.id) := fun hh => hne hh.symm
        rw [if_neg hne2]
        have h2 := hr.2
        omega
      · intro p0 p hr hpe
        refine ⟨hr.1, ?_⟩
        dsimp only
        rw [hpe, cartQty_eraseIdx hget]
        rw [if_pos rfl]
        have h2 := hr.2
        rw [hpe] at h2
        omega

theorem conserved_clear_aux {P0 : List Product} :
    ∀ (items : List CartItem) (ps : List Product),
      List.Forall₂ (fun p0 p => p.id = p0.id ∧ p.stock + cartQty items p.id = p0.stock) P0 ps →
      (ps.map Product.id).Nodup →
      List.Forall₂ (fun p0 p => p.id = p0.id ∧ p.stock = p0.stock) P0
        (items.foldl (fun acc it => addStockFirst it.product_id it.quantity acc) ps) := by
  intro items
  induction items with
  | nil =>
    intro ps h _
    simp only [List.foldl_nil]
    refine forall₂_imp_mem h (fun p0 p _ _ hr => ⟨hr.1, ?_⟩)
    have h2 := hr.2
    rw [cartQty_nil] at h2
    omega
  | cons it rest ih =>
    intro ps h hnd
    rw [List.foldl_cons]
    apply ih
    · apply addStockFirst_forall₂ h hnd
      · intro p0 p hr hne
        refine ⟨hr.1, ?_⟩
        have h2 := hr.2
        rw [cartQty_cons, if_neg (fun hh => hne hh.symm)] at h2
        omega
      · intro p0 p hr hpe
        refine ⟨hr.1, ?_⟩
        dsimp only
        have h2 := hr.2
        rw [cartQty_cons, hpe] at h2
        rw [if_pos rfl] at h2
        rw [hpe]
        omega
    · rw [addStockFirst_map_id]; exact hnd

theorem conserved_clear {P0 : List Product} {st : Store}
    (hnd : (P0.map Product.id).Nodup) (h : Conserved P0 st) :
    Conserved P0 (clear_cart st) := by
  have hndps : (st.products.map Product.id).Nodup := by
    rw [conserved_map_id h]; exact hnd
  unfold clear_cart
  by_cases hc : st.cart = []
  · rw [if_pos hc]; exact h
  · rw [if_neg hc]
    unfold Conserved
    dsimp only
    have haux := conserved_clear_aux st.cart st.products h hndps
    refine forall₂_imp_mem haux (fun p0 p _ _ hr => ⟨hr.1, ?_⟩)
    rw [cartQty_nil]
    have h2 := hr.2
    omega

/-- C1: from a freshly loaded inventory (distinct product ids, empty cart),
after any sequence of add_to_cart / update_cart_item / remove_from_cart /
clear_cart calls, every product's stock plus the cart's total quantity for
its id equals the product's initial stock. -/
theorem cart_conservation (P0 : List Product) (ops : List CartOp)
    (hnd : (P0.map Product.id).Nodup) :
    Conserved P0 (runOps ⟨P0, []⟩ ops) := by
  have hbase : Conserved P0 ⟨P0, []⟩ := by
    unfold Conserved
    apply List.forall₂_same.mpr
    intro p _
    exact ⟨rfl, by rw [cartQty_nil]; omega⟩
  suffices hgen : ∀ (l : List CartOp) (st : Store), Conserved P0 st → Conserved P0 (runOps st l) by
    exact hgen ops _ hbase
  intro l
  induction l with
  | nil => intro st h; exact h
  | cons op rest ih =>
    intro st h
    show Conserved P0 (List.foldl applyOp st (op :: rest))
    rw [List.foldl_cons]
    refine ih _ ?_
    cases op with
    | add p => exact conserved_add p hnd h
    | update i q => exact conserved_update i q hnd h
    | remove i => exact conserved_remove i hnd h
    | clear => exact conserved_clear hnd h

/-- Witness for cart_conservation: two products, two adds of product 1, a
quantity update and a removal. -/
theorem cart_conservation_witness :
    Conserved [⟨1, ['a'], 5, 10⟩, ⟨2, ['b'], 3, 10⟩]
      (runOps ⟨[⟨1, ['a'], 5, 10⟩, ⟨2, ['b'], 3, 10⟩], []⟩
        [.add ⟨1, ['a'], 5, 10⟩, .add ⟨1, ['a'], 5, 10⟩, .update 0 1, .remove 0]) :=
  cart_conservation [⟨1, ['a'], 5, 10⟩, ⟨2, ['b'], 3, 10⟩]
    [.add ⟨1, ['a'], 5, 10⟩, .add ⟨1, ['a'], 5, 10⟩, .update 0 1, .remove 0] (by decide)

theorem splitOnChar_ne_nil (sep : Char) : ∀ s : Str, splitOnChar sep s ≠ [] := by
  intro s
  induction s with
  | nil => simp [splitOnChar]
  | cons c cs ih =>
    unfold splitOnChar
    cases h : splitOnChar sep cs with
    | nil => simp
    | cons hd tl => by_cases hc : c = sep <;> simp [hc]

theorem splitOnChar_not_mem {sep : Char} : ∀ {s : Str}, sep ∉ s → splitOnChar sep s = [s] := by
  intro s h
  induction s with
  | nil => rfl
  | cons c cs ih =>
    have hc : ¬ c = sep := fun hh => h (hh ▸ List.mem_cons_self c cs)
    have ht := ih (fun hm => h (List.mem_cons_of_mem c hm))
    unfold splitOnChar
    rw [ht]
    simp [hc]

theorem splitOnChar_cons (sep c : Char) (cs : Str) :
    splitOnChar sep (c :: cs) =
      match splitOnChar sep cs with
      | [] => [[c]]
      | h :: t => if c = sep then [] :: h :: t else (c :: h) :: t := rfl

theorem splitOnChar_append {sep : Char} {b : Str} :
    ∀ {a : Str}, sep ∉ a → splitOnChar sep (a ++ sep :: b) = a :: splitOnChar sep b := by
  intro a h
  induction a with
  | nil =>
    show splitOnChar sep (sep :: b) = [] :: splitOnChar sep b
    rw [splitOnChar_cons]
    cases hb : splitOnChar sep b with
    | nil => exact absurd hb (splitOnChar_ne_nil sep b)
    | cons hd tl => simp
  | cons c a2 ih =>
    have hc : ¬ c = sep := fun hh => h (hh ▸ List.mem_cons_self c a2)
    have ht := ih (fun hm => h (List.mem_cons_of_mem c hm))
    show splitOnChar sep (c :: (a2 ++ sep :: b)) = (c :: a2) :: splitOnChar sep b
    rw [splitOnChar_cons, ht]
    simp [hc]

theorem digitChar_mem_pyDigits : ∀ d < 10, Nat.digitChar d ∈ pyDigits := by
  intro d hd
  interval_cases d <;> decide

theorem digitChar_toNat : ∀ d < 10, (Nat.digitChar d).toNat - 48 = d := by
  intro d hd
  interval_cases d <;> decide

theorem natToChars_ne_nil (n : ℕ) : natToChars n ≠ [] := by
  unfold natToChars
  by_cases h : n = 0
  · simp [h]
  · simp [h, Nat.digits_ne_nil_iff_ne_zero.mpr h]

theorem natToChars_mem_pyDigits (n : ℕ) : ∀ c ∈ natToChars n, c ∈ pyDigits := by
  intro c hc
  unfold natToChars at hc
  by_cases h : n = 0
  · rw [if_pos h] at hc
    simp at hc
    subst hc
    decide
  · rw [if_neg h] at hc
    rw [List.mem_reverse, List.mem_map] at hc
    obtain ⟨d, hd, hdc⟩ := hc
    exact hdc ▸ digitChar_mem_pyDigits d (Nat.digits_lt_base (by norm_num) hd)

theorem charsToNat_natToChars (n : ℕ) : charsToNat (natToChars n) = n := by
  by_cases h : n = 0
  · subst h; decide
  · unfold natToChars charsToNat
    rw [if_neg h, List.map_reverse, List.reverse_reverse, List.map_map]
    have hmap : (Nat.digits 10 n).map ((fun c => c.toNat - 48) ∘ Nat.digitChar) =
        Nat.digits 10 n := by
      conv_rhs => rw [← List.map_id (Nat.digits 10 n)]
      apply List.map_congr_left
      intro d hd
      exact digitChar_toNat d (Nat.digits_lt_base (by norm_num) hd)
    rw [hmap, Nat.ofDigits_digits]

theorem natToChars_length_le {n k : ℕ} (hk : 1 ≤ k) (h : n < 10 ^ k) :
    (natToChars n).length ≤ k := by
  by_cases h0 : n = 0
  · subst h0; simpa [natToChars] using hk
  · unfold natToChars
    rw [if_neg h0]
    rw [List.length_reverse, List.length_map, Nat.digits_len 10 n (by norm_num) h0]
    have := Nat.log_lt_of_lt_pow h0 h
    omega

theorem ofDigits_replicate_zero (m : ℕ) : Nat.ofDigits 10 (List.replicate m 0) = 0 := by
  induction m with
  | zero => rfl
  | succ m ih => simp [List.replicate_succ, Nat.ofDigits_cons, ih]

theorem charsToNat_replicate_zero (m : ℕ) (s : Str) :
    charsToNat (List.replicate m '0' ++ s) = charsToNat s := by
  unfold charsToNat
  rw [List.map_append, List.reverse_append]
  have hrep : (List.replicate m '0').map (fun c => c.toNat - 48) = List.replicate m 0 := by
    simp [List.map_replicate]
  rw [hrep, List.reverse_replicate, Nat.ofDigits_append, ofDigits_replicate_zero]
  simp

theorem padZeros_length {k m : ℕ} (hk : 1 ≤ k) (h : m < 10 ^ k) :
    (padZeros k m).length = k := by
  unfold padZeros
  rw [List.length_append, List.length_replicate]
  have := natToChars_length_le hk h
  omega

theorem charsToNat_padZeros (k m : ℕ) : charsToNat (padZeros k m) = m := by
  unfold padZeros
  rw [charsToNat_replicate_zero, charsToNat_natToChars]

theorem padZeros_mem_pyDigits (k m : ℕ) : ∀ c ∈ padZeros k m, c ∈ pyDigits := by
  intro c hc
  unfold padZeros at hc
  rcases List.mem_append.mp hc with hr | hn
  · rw [List.eq_of_mem_replicate hr]
    decide
  · exact natToChars_mem_pyDigits m c hn

theorem decExp_dvd {den : ℕ} (h : den ∣ 10 ^ den) : den ∣ 10 ^ decExp den := by
  unfold decExp
  cases hf : (List.range (den + 1)).find? (fun k => decide (den ∣ 10 ^ k)) with
  | some k =>
    have := List.find?_some hf
    simp only [Option.getD_some]
    simpa using this
  | none =>
    exfalso
    have := List.find?_eq_none.mp hf den (List.mem_range.mpr (by omega))
    simp at this
    exact this h

theorem formatFloat_mem (q : ℚ) : ∀ c ∈ formatFloat q, c ∈ pyDigits ∨ c = '.' := by
  intro c hc
  unfold formatFloat at hc
  rcases List.mem_append.mp hc with ha | hb
  · exact Or.inl (natToChars_mem_pyDigits _ c ha)
  · rcases List.mem_cons.mp hb with rfl | hb2
    · exact Or.inr rfl
    · exact Or.inl (padZeros_mem_pyDigits _ _ c hb2)

theorem pyDigits_char_facts :
    ∀ c ∈ pyDigits, isPySpace c = false ∧ c ≠ ',' ∧ c ≠ '\n' ∧ c ≠ '.' ∧
      c ≠ '-' ∧ c ≠ '+' ∧ c.isDigit = true := by
  decide

/-- Round trip of the balance: parsing the printed decimal recovers the
exact value, for a nonnegative finite-decimal rational. -/
theorem parseFloat_formatFloat {q : ℚ} (h0 : 0 ≤ q) (hd : IsDecimalRat q) :
    parseFloat (formatFloat q) = some q := by
  set K := max (decExp q.den) 1 with hK
  set n := q.num.toNat * 10 ^ K / q.den with hn
  set B := padZeros K (n % 10 ^ K) with hB
  set A := natToChars (n / 10 ^ K) with hA0
  have hk1 : 1 ≤ K := le_max_right _ _
  have hdvd : q.den ∣ 10 ^ K := (decExp_dvd hd).trans (pow_dvd_pow 10 (le_max_left _ _))
  have hpow : (0:ℕ) < 10 ^ K := by positivity
  have hff : formatFloat q = A ++ '.' :: B := rfl
  obtain ⟨c, A2, hA⟩ := List.exists_cons_of_ne_nil (natToChars_ne_nil (n / 10 ^ K))
  rw [← hA0] at hA
  have hmemA : ∀ x ∈ A, x ∈ pyDigits := natToChars_mem_pyDigits _
  have hmemB : ∀ x ∈ B, x ∈ pyDigits := padZeros_mem_pyDigits _ _
  have hcf := pyDigits_char_facts c (hmemA c (hA ▸ List.mem_cons_self c A2))
  rw [hff, hA, List.cons_append]
  unfold parseFloat
  dsimp only
  rw [if_neg hcf.2.2.2.2.1, if_neg hcf.2.2.2.2.2.1]
  unfold parseUnsignedFloat
  have hnoA : '.' ∉ c :: A2 := by
    intro hm
    exact (pyDigits_char_facts '.' (hmemA '.' (hA ▸ hm))).2.2.2.1 rfl
  have hnoB : '.' ∉ B := by
    intro hm
    exact (pyDigits_char_facts '.' (hmemB '.' hm)).2.2.2.1 rfl
  rw [← List.cons_append, splitOnChar_append hnoA, splitOnChar_not_mem hnoB]
  dsimp only
  have hcond : (c :: A2 ≠ [] ∨ B ≠ []) ∧ (c :: A2).all Char.isDigit = true ∧
      B.all Char.isDigit = true := by
    refine ⟨Or.inl (by simp), List.all_eq_true.mpr ?_, List.all_eq_true.mpr ?_⟩
    · intro x hx
      exact (pyDigits_char_facts x (hmemA x (hA ▸ hx))).2.2.2.2.2.2
    · intro x hx
      exact (pyDigits_char_facts x (hmemB x hx)).2.2.2.2.2.2
  rw [if_pos hcond]
  rw [← hA, hA0, hB, charsToNat_natToChars, charsToNat_padZeros,
    padZeros_length hk1 (Nat.mod_lt _ hpow)]
  congr 1
  have hnum : (0:ℤ) ≤ q.num := Rat.num_nonneg.mpr h0
  have htn : ((q.num.toNat : ℕ) : ℚ) = (q.num : ℚ) := by
    exact_mod_cast congrArg Int.cast (Int.toNat_of_nonneg hnum)
  have hqd : ((q.den : ℕ) : ℚ) ≠ 0 := Nat.cast_ne_zero.mpr (Rat.den_ne_zero q)
  have hQpow : ((10:ℚ) ^ K) ≠ 0 := by positivity
  have hexact : n * q.den = q.num.toNat * 10 ^ K := by
    rw [hn]
    exact Nat.div_mul_cancel (Dvd.dvd.mul_left hdvd _)
  have hnq : ((n : ℕ) : ℚ) * (q.den : ℚ) = (q.num : ℚ) * (10:ℚ) ^ K := by
    rw [← htn]
    exact_mod_cast congrArg (fun x : ℕ => (x : ℚ)) hexact
  have hdm := Nat.div_add_mod n (10 ^ K)
  have hkey : ((n / 10 ^ K : ℕ) : ℚ) + ((n % 10 ^ K : ℕ) : ℚ) / (10:ℚ) ^ K =
      ((n : ℕ) : ℚ) / (10:ℚ) ^ K := by
    rw [eq_div_iff hQpow, add_mul, div_mul_cancel₀ _ hQpow]
    have h2 : n / 10 ^ K * 10 ^ K + n % 10 ^ K = n := by
      rw [Nat.mul_comm (10 ^ K) (n / 10 ^ K)] at hdm
      exact hdm
    exact_mod_cast h2
  rw [hkey, div_eq_iff hQpow]
  have hq2 : q * (q.den : ℚ) = (q.num : ℚ) := Rat.mul_den_eq_num q
  apply mul_right_cancel₀ hqd
  rw [hnq, ← hq2]
  ring

theorem dropWhile_length_le (p : Char → Bool) : ∀ l : Str, (l.dropWhile p).length ≤ l.length := by
  intro l
  induction l with
  | nil => simp
  | cons c t ih =>
    rw [List.dropWhile_cons]
    by_cases h : p c = true
    · rw [if_pos h]
      exact ih.trans (Nat.le_succ _)
    · rw [if_neg h]

theorem pyStrip_length_le (s : Str) : (pyStrip s).length ≤ s.length := by
  unfold pyStrip
  rw [List.length_reverse]
  calc ((s.dropWhile isPySpace).reverse.dropWhile isPySpace).length
      ≤ (s.dropWhile isPySpace).reverse.length := dropWhile_length_le _ _
    _ = (s.dropWhile isPySpace).length := List.length_reverse _
    _ ≤ s.length := dropWhile_length_le _ _

theorem dropWhile_eq_self_of_head {p : Char → Bool} {s : Str}
    (h : ∀ c, s.head? = some c → p c = false) : s.dropWhile p = s := by
  cases s with
  | nil => rfl
  | cons c t =>
    rw [List.dropWhile_cons, h c rfl]
    simp

theorem pyStrip_eq_self {s : Str}
    (hh : ∀ c, s.head? = some c → isPySpace c = false)
    (hl : ∀ c, s.getLast? = some c → isPySpace c = false) : pyStrip s = s := by
  unfold pyStrip
  rw [dropWhile_eq_self_of_head hh]
  rw [dropWhile_eq_self_of_head (fun c hc => hl c (by rwa [List.head?_reverse] at hc))]
  exact List.reverse_reverse s

theorem pyStrip_no_space {s : Str} (h : ∀ c ∈ s, isPySpace c = false) : pyStrip s = s :=
  pyStrip_eq_self (fun c hc => h c (List.mem_of_mem_head? hc))
    (fun c hc => h c (List.mem_of_mem_getLast? hc))

theorem pyStrip_self_head {s : Str} (h : pyStrip s = s) :
    ∀ c, s.head? = some c → isPySpace c = false := by
  intro c hc
  cases s with
  | nil => simp at hc
  | cons c0 t =>
    have hc0 : c0 = c := by simpa using hc
    subst hc0
    by_contra hsp
    have hsp2 : isPySpace c0 = true := by
      revert hsp
      cases isPySpace c0 <;> simp
    have hstep : pyStrip (c0 :: t) = pyStrip t := by
      unfold pyStrip
      rw [List.dropWhile_cons, if_pos hsp2]
    have heq : c0 :: t = pyStrip t := by rw [← h, hstep]
    have hlen := pyStrip_length_le t
    have hlen2 := congrArg List.length heq
    simp at hlen2
    omega

theorem pyStrip_self_last {s : Str} (h : pyStrip s = s) :
    ∀ c, s.getLast? = some c → isPySpace c = false := by
  intro c hc
  by_contra hsp
  have hsp2 : isPySpace c = true := by
    revert hsp
    cases isPySpace c <;> simp
  have hA : s.dropWhile isPySpace = s := by
    cases s with
    | nil => rfl
    | cons c0 t =>
      rw [List.dropWhile_cons]
      by_cases h0 : isPySpace c0 = true
      · exfalso
        have hstep : pyStrip (c0 :: t) = pyStrip t := by
          unfold pyStrip
          rw [List.dropWhile_cons, if_pos h0]
        have heq : c0 :: t = pyStrip t := by rw [← h, hstep]
        have hlen := pyStrip_length_le t
        have hlen2 := congrArg List.length heq
        simp at hlen2
        omega
      · rw [if_neg h0]
  have hrev : (s.reverse.dropWhile isPySpace).reverse = s := by
    have h2 := h
    unfold pyStrip at h2
    rwa [hA] at h2
  have hrev2 : s.reverse.dropWhile isPySpace = s.reverse := by
    have h2 := congrArg List.reverse hrev
    rwa [List.reverse_reverse] at h2
  cases hsr : s.reverse with
  | nil =>
    have hempty : s = [] := by
      have := congrArg List.reverse hsr
      simpa using this
    rw [hempty] at hc
    simp at hc
  | cons c0 t =>
    have hc0 : c0 = c := by
      have h3 : s.reverse.head? = some c := by rw [List.head?_reverse]; exact hc
      rw [hsr] at h3
      simpa using h3
    subst hc0
    rw [hsr, List.dropWhile_cons, if_pos hsp2] at hrev2
    have hlen2 := congrArg List.length hrev2
    have hlen := dropWhile_length_le isPySpace t
    simp at hlen2
    omega

/-- A stored record's line parses back to the record itself. -/
theorem parseUserLine_saveLine {u : UserR} (hv : storableUser u) :
    parseUserLine (u.username ++ (',' :: (u.email ++ (',' :: (u.password_hash
      ++ (',' :: formatFloat u.balance)))))) = some u := by
  obtain ⟨⟨hu1, he1, hh1, hu2, he2, hh2, hb0, hbd⟩, hsu, hse, hsh⟩ := hv
  have hucm : ',' ∉ u.username := fun hm => (hu2 ',' hm).1 rfl
  have hecm : ',' ∉ u.email := fun hm => (he2 ',' hm).1 rfl
  have hhcm : ',' ∉ u.password_hash := fun hm => (hh2 ',' hm).1 rfl
  have hfcm : ',' ∉ formatFloat u.balance := by
    intro hm
    rcases formatFloat_mem u.balance ',' hm with hd2 | hd2
    · exact (pyDigits_char_facts ',' hd2).2.1 rfl
    · exact absurd hd2 (by decide)
  unfold parseUserLine
  rw [splitOnChar_append hucm, splitOnChar_append hecm, splitOnChar_append hhcm,
    splitOnChar_not_mem hfcm]
  dsimp only
  rw [hsu, hse, hsh]
  have hune : u.username ≠ [] := hsu ▸ hu1
  have hene : u.email ≠ [] := hse ▸ he1
  have hhne : u.password_hash ≠ [] := hsh ▸ hh1
  rw [if_neg (by simp [hune, hene, hhne])]
  have hfns : ∀ c ∈ formatFloat u.balance, isPySpace c = false := by
    intro c hm
    rcases formatFloat_mem u.balance c hm with hd2 | hd2
    · exact (pyDigits_char_facts c hd2).1
    · subst hd2; decide
  rw [pyStrip_no_space hfns, parseFloat_formatFloat hb0 hbd]
  dsimp only
  rw [if_neg (not_lt.mpr hb0)]

/-- C6 amended: saving then loading restores the user list exactly, for
records that are valid in the claim's sense and additionally free of leading
and trailing whitespace in their text fields (the trimming performed by
load_users makes the round trip fail otherwise — see the counterexample). -/
theorem load_save_users (users : List UserR) (h : ∀ u ∈ users, storableUser u) :
    load_users (save_users users) = users := by
  induction users with
  | nil => rfl
  | cons u rest ih =>
    obtain ⟨⟨hu1, he1, hh1, hu2, he2, hh2, hb0, hbd⟩, hsu, hse, hsh⟩ :=
      h u (List.mem_cons_self u rest)
    have hrest := ih (fun v hv => h v (List.mem_cons_of_mem u hv))
    have hune : u.username ≠ [] := hsu ▸ hu1
    obtain ⟨c0, u0, hcu⟩ := List.exists_cons_of_ne_nil hune
    have hfne : formatFloat u.balance ≠ [] := by
      unfold formatFloat
      simp
    have hnl : '\n' ∉ u.username ++ (',' :: (u.email ++ (',' :: (u.password_hash
        ++ (',' :: formatFloat u.balance))))) := by
      intro hm
      rcases List.mem_append.mp hm with h1 | h1
      · exact (hu2 '\n' h1).2 rfl
      rcases List.mem_cons.mp h1 with h2 | h2
      · exact absurd h2 (by decide)
      rcases List.mem_append.mp h2 with h3 | h3
      · exact (he2 '\n' h3).2 rfl
      rcases List.mem_cons.mp h3 with h4 | h4
      · exact absurd h4 (by decide)
      rcases List.mem_append.mp h4 with h5 | h5
      · exact (hh2 '\n' h5).2 rfl
      rcases List.mem_cons.mp h5 with h6 | h6
      · exact absurd h6 (by decide)
      rcases formatFloat_mem u.balance '\n' h6 with hd2 | hd2
      · exact (pyDigits_char_facts '\n' hd2).2.2.1 rfl
      · exact absurd hd2 (by decide)
    have hlast : ∀ c, (u.username ++ (',' :: (u.email ++ (',' :: (u.password_hash
        ++ (',' :: formatFloat u.balance)))))).getLast? = some c → isPySpace c = false := by
      intro c hc
      have hsplit2 : u.username ++ (',' :: (u.email ++ (',' :: (u.password_hash
          ++ (',' :: formatFloat u.balance))))) =
          (u.username ++ (',' :: (u.email ++ (',' :: (u.password_hash ++ [','])))))
            ++ formatFloat u.balance := by
        simp [List.append_assoc]
      rw [hsplit2, List.getLast?_append_of_ne_nil _ hfne] at hc
      have hcm : c ∈ formatFloat u.balance := List.mem_of_mem_getLast? hc
      rcases formatFloat_mem u.balance c hcm with hd2 | hd2
      · exact (pyDigits_char_facts c hd2).1
      · subst hd2; decide
    have hhead : ∀ c, (u.username ++ (',' :: (u.email ++ (',' :: (u.password_hash
        ++ (',' :: formatFloat u.balance)))))).head? = some c → isPySpace c = false := by
      intro c hc
      rw [hcu, List.cons_append] at hc
      have hc0 : c0 = c := by simpa using hc
      subst hc0
      exact pyStrip_self_head hsu c0 (by rw [hcu]; rfl)
    have hstrip := pyStrip_eq_self hhead hlast
    have hsave : save_users (u :: rest) =
        (u.username ++ (',' :: (u.email ++ (',' :: (u.password_hash
          ++ (',' :: formatFloat u.balance)))))) ++ '\n' :: save_users rest := by
      show (List.map saveLine (u :: rest)).flatten = _
      rw [List.map_cons, List.flatten_cons]
      show saveLine u ++ save_users rest = _
      unfold saveLine
      simp [List.append_assoc]
    unfold load_users
    rw [hsave, splitOnChar_append hnl, List.filterMap_cons]
    dsimp only
    rw [hstrip]
    rw [if_neg (by rw [hcu, List.cons_append]; simp)]
    rw [parseUserLine_saveLine ⟨⟨hu1, he1, hh1, hu2, he2, hh2, hb0, hbd⟩, hsu, hse, hsh⟩]
    exact congrArg (fun l => u :: l) hrest

/-- Witness for load_save_users: one well-formed record with balance 7
survives the round trip. -/
theorem load_save_users_witness :
    load_users (save_users [⟨['a', 'b'], ['e', '@', 'x', '.', 'y'], ['h'], 7⟩]) =
      [⟨['a', 'b'], ['e', '@', 'x', '.', 'y'], ['h'], 7⟩] :=
  load_save_users [⟨['a', 'b'], ['e', '@', 'x', '.', 'y'], ['h'], 7⟩] (by
    intro v hv
    rw [List.mem_singleton] at hv
    subst hv
    decide)

/-- Counterexample to C8 as stated: "a b@c.d" has non-whitespace around its
`@` and its `.`, yet validate_email rejects it — the pattern tolerates no
whitespace anywhere in the string. -/
theorem validate_email_claim_cex :
    emailClaimShape ['a', ' ', 'b', '@', 'c', '.', 'd'] ∧
    validate_email ['a', ' ', 'b', '@', 'c', '.', 'd'] = false := by
  constructor
  · exact ⟨⟨'a', by decide, by decide⟩,
      ⟨3, by decide, by decide, by decide, by decide, by decide⟩,
      ⟨5, by decide, by decide, by decide, by decide, by decide⟩⟩
  · decide
